import Mathlib

set_option maxRecDepth 16384

/-!
Verification of the text-processing core of a social-media content assistant.

The functions modelled here come from the repository's `utils.py`:
`validate_input`, `clean_text`, `format_hashtags`, `parse_agent_response`,
`create_download_filename`, `get_platform_limits` and `validate_content_length`.
Strings are modelled as Lean `String` / `List Char` (one element per Unicode
code point, matching Python's `len` and indexing semantics).

Modelling notes, shared by all definitions below:
* Python's `str.strip` / `\s` whitespace class is modelled by `pyIsSpace`,
  covering the code points CPython treats as whitespace.
* Python's Unicode `\w` class is modelled by `pyWordChar`: ASCII alphanumerics,
  underscore, and the Latin-1/Latin-Extended letter blocks (the common
  non-ASCII word characters); `str.lower` is modelled by `Char.toLower`
  (ASCII case mapping).
* `datetime.now()` is modelled by an explicit `PyDateTime` argument.
* Python's `list(set(xs))` has unspecified order; it is modelled by
  `dedupFirst`, which keeps first occurrences, and all claims about it are
  stated order-independently.
-/

/-- Whitespace recognised by Python's `str.strip`, `str.split()` and `\s`. -/
def pyIsSpace (c : Char) : Bool :=
  c == ' ' || c == '\t' || c == '\n' || c == '\r' || c == '\x0b' || c == '\x0c' ||
  (0x1c ≤ c.val && c.val ≤ 0x1f) || c == '\x85' || c == '\xa0' ||
  c.val == 0x1680 || (0x2000 ≤ c.val && c.val ≤ 0x200a) ||
  c.val == 0x2028 || c.val == 0x2029 || c.val == 0x202f || c.val == 0x205f ||
  c.val == 0x3000

/-- Python's regex `\w` class: ASCII alphanumerics, underscore, and (as a model
of the full Unicode class) the Latin-1 Supplement / Latin Extended letters. -/
def pyWordChar (c : Char) : Bool :=
  c.isAlphanum || c == '_' ||
  (0xc0 ≤ c.val && c.val ≤ 0x24f && c.val != 0xd7 && c.val != 0xf7)

/-- The punctuation allow-list of `clean_text`'s second regex
`[^\w\s\-.,!?@#$%&*()+=\[\]{}:;"'<>/\\|` + backtick + `~]`. -/
def punctAllowed : List Char :=
  ['-', '.', ',', '!', '?', '@', '#', '$', '%', '&', '*', '(', ')', '+', '=',
   '[', ']', '\x7b', '\x7d', ':', ';', '\x22', '\x27', '<', '>', '/', '\\',
   '|', '\x60', '~']

/-- A character kept by `clean_text` (word character, whitespace or allowed
punctuation). -/
def allowedChar (c : Char) : Bool :=
  pyWordChar c || pyIsSpace c || punctAllowed.contains c

/-- ASCII `[a-zA-Z0-9_]`, the class kept by `format_hashtags`' cleanup regex. -/
def asciiWordChar (c : Char) : Bool :=
  c.isAlphanum || c == '_'

/-- Boolean `startswith` on code-point lists. -/
def lstartsWith : List Char → List Char → Bool
  | [], _ => true
  | _ :: _, [] => false
  | p :: ps, c :: cs => p == c && lstartsWith ps cs

/-- Boolean `endswith` on code-point lists. -/
def lendsWith (p l : List Char) : Bool := lstartsWith p.reverse l.reverse

/-- Python's substring containment (`needle in hay`). -/
def containsSub : List Char → List Char → Bool
  | n, [] => lstartsWith n []
  | n, c :: cs => lstartsWith n (c :: cs) || containsSub n cs

/-- Drop leading Python whitespace (`str.lstrip`). -/
def stripL : List Char → List Char
  | [] => []
  | c :: cs => if pyIsSpace c then stripL cs else c :: cs

/-- Drop trailing Python whitespace (`str.rstrip`). -/
def stripR : List Char → List Char
  | [] => []
  | c :: cs =>
    match stripR cs with
    | [] => if pyIsSpace c then [] else [c]
    | r => c :: r

/-- Python's `str.strip()` on code-point lists. -/
def pyStrip (l : List Char) : List Char := stripR (stripL l)

/-- Python's `str.strip()` on strings. -/
def pyStripS (s : String) : String := String.mk (pyStrip s.toList)

/-- Worker for `collapseRuns`; the flag records whether the previous character
belonged to a run already replaced. -/
def crGo (p : Char → Bool) (rep : Char) : Bool → List Char → List Char
  | _, [] => []
  | b, c :: cs =>
    if p c then
      (if b then crGo p rep true cs else rep :: crGo p rep true cs)
    else c :: crGo p rep false cs

/-- `re.sub(class+, rep, l)`: replace each maximal run of characters satisfying
`p` by the single character `rep`. -/
def collapseRuns (p : Char → Bool) (rep : Char) (l : List Char) : List Char :=
  crGo p rep false l

/-- Python's `str.split('\n')` on code-point lists (always non-empty; an empty
input yields one empty line). -/
def splitLines : List Char → List (List Char)
  | [] => [[]]
  | c :: cs =>
    let r := splitLines cs
    if c = '\n' then [] :: r else (c :: r.headD []) :: r.tail

/-- Python's `'\n'.join(ls)` on code-point lists. -/
def joinSep : List (List Char) → List Char
  | [] => []
  | [l] => l
  | l :: ls => l ++ '\n' :: joinSep ls

/-- The raw accumulator text obtained by appending `line + "\n"` for every
line of `ls`, as `parse_agent_response`'s loop does. -/
def accJoin (ls : List (List Char)) : List Char :=
  ls.foldr (fun l r => l ++ '\n' :: r) []

/-- Worker for `split_words`; the first argument is the remaining input, the
second the (reversed) word currently being read. -/
def swGo : List Char → List Char → List (List Char)
  | [], acc => if acc = [] then [] else [acc.reverse]
  | c :: cs, acc =>
    if pyIsSpace c then
      (if acc = [] then swGo cs [] else acc.reverse :: swGo cs [])
    else swGo cs (c :: acc)

/-- Python's `str.split()` (split on whitespace runs, dropping empties). -/
def split_words (l : List Char) : List (List Char) := swGo l []

/-- One decimal digit character. -/
def decDigit (n : Nat) : Char :=
  if n = 0 then '0' else if n = 1 then '1' else if n = 2 then '2'
  else if n = 3 then '3' else if n = 4 then '4' else if n = 5 then '5'
  else if n = 6 then '6' else if n = 7 then '7' else if n = 8 then '8' else '9'

/-- Fuelled decimal rendering worker (structural, so that it evaluates in the
kernel). -/
def decReprAux : Nat → Nat → List Char
  | 0, _ => []
  | fuel + 1, n =>
    if n < 10 then [decDigit n] else decReprAux fuel (n / 10) ++ [decDigit (n % 10)]

/-- Decimal rendering of a natural number, as Python formats integers. -/
def decRepr (n : Nat) : List Char := decReprAux (n + 1) n

/-- `n` rendered in decimal and left-padded with zeros to width `w`
(as `strftime`'s `%Y`/`%m`/... fields). -/
def padZ (w : Nat) (n : Nat) : List Char :=
  List.replicate (w - (decRepr n).length) '0' ++ decRepr n

/-- Worker for `dedupFirst`; `seen` collects the elements already emitted. -/
def dedupAux : List (List Char) → List (List Char) → List (List Char)
  | _, [] => []
  | seen, x :: xs =>
    if x ∈ seen then dedupAux seen xs else x :: dedupAux (x :: seen) xs

/-- Deduplication keeping first occurrences: the model of Python's
`list(set(xs))`, whose order is unspecified. -/
def dedupFirst (l : List (List Char)) : List (List Char) := dedupAux [] l

/-- Scanner for the regex `#\w+` (`re.findall` semantics: leftmost,
non-overlapping, greedy). The second argument is `some acc` while inside a
candidate match, holding the word characters read so far in reverse. -/
def ftGo : List Char → Option (List Char) → List (List Char)
  | [], none => []
  | [], some acc => if acc = [] then [] else [('#' :: acc.reverse)]
  | c :: cs, none => if c = '#' then ftGo cs (some []) else ftGo cs none
  | c :: cs, some acc =>
    if pyWordChar c then ftGo cs (some (c :: acc))
    else if acc = [] then (if c = '#' then ftGo cs (some []) else ftGo cs none)
    else ('#' :: acc.reverse) :: (if c = '#' then ftGo cs (some []) else ftGo cs none)

/-- All matches of `#\w+` in the input (`re.findall(r'#\w+', l)`). -/
def findTags (l : List Char) : List (List Char) := ftGo l none

/-- The platform enum accepted by `validate_input` (also the key set of the
platform-limit table). -/
def valid_platforms : List String :=
  ["Instagram", "Twitter/X", "LinkedIn", "Facebook", "TikTok", "YouTube", "General"]

/-- The tone enum accepted by `validate_input`. -/
def valid_tones : List String :=
  ["Professional", "Casual", "Inspiring", "Educational", "Humorous", "Urgent", "Friendly"]

/-- `validate_input(topic, platform, tone)` from `utils.py`. -/
def validate_input (topic platform tone : String) : Bool × String :=
  if topic = "" ∨ pyStripS topic = "" then (false, "Topic cannot be empty")
  else if (pyStripS topic).length < 3 then
    (false, "Topic must be at least 3 characters long")
  else if 500 < (pyStripS topic).length then
    (false, "Topic must be less than 500 characters")
  else if platform ∉ valid_platforms then (false, "Invalid platform selected")
  else if tone ∉ valid_tones then (false, "Invalid tone selected")
  else (true, "")

/-- `clean_text(text)` from `utils.py`: strip, collapse whitespace runs to a
single space, then delete characters outside the allow-list. -/
def clean_text (text : String) : String :=
  if text = "" then ""
  else String.mk ((collapseRuns pyIsSpace ' ' (pyStrip text.toList)).filter allowedChar)

/-- `format_hashtags(hashtags)` from `utils.py`: find `#\w+` matches, strip the
hash marks, delete non-`[a-zA-Z0-9_]` characters, keep cleaned tags longer
than one character, re-prefix `#`, deduplicate. -/
def format_hashtags (hashtags : String) : List String :=
  if hashtags = "" then []
  else
    let found := findTags hashtags.toList
    let formatted := found.filterMap (fun tag =>
      let ct := (tag.filter (fun c => c != '#')).filter asciiWordChar
      if ct ≠ [] ∧ 1 < ct.length then some ('#' :: ct) else none)
    (dedupFirst formatted).map String.mk

/-- The six section keys of `parse_agent_response`'s accumulator. -/
inductive SectionTag where
  | summary
  | content
  | hashtags
  | visual_concepts
  | analytics
  | trends
deriving DecidableEq

/-- The parser's accumulator: one text blob per section key. -/
abbrev SecAcc := SectionTag → List Char

/-- The trigger substrings switching to the summary section. -/
def summaryTriggers : List String :=
  ["📊 content package", "content package summary", "## 📊"]

/-- The trigger substrings switching to the content section. -/
def contentTriggers : List String :=
  ["📝 content", "## 📝", "post content"]

/-- The trigger substrings switching to the hashtags section. -/
def hashtagTriggers : List String :=
  ["🏷️ hashtag", "hashtag strategy", "## 🏷️"]

/-- The trigger substrings switching to the visual-concepts section. -/
def visualTriggers : List String :=
  ["🎨 visual", "visual concept", "## 🎨"]

/-- The trigger substrings switching to the analytics section. -/
def analyticsTriggers : List String :=
  ["📈 performance", "analytics", "insights", "## 📈"]

/-- The trigger substrings switching to the trends section. -/
def trendsTriggers : List String :=
  ["🔥 trend", "trending element", "## 🔥"]

/-- `any(header in line_lower for header in ts)`. -/
def hasTrig (ts : List String) (low : List Char) : Bool :=
  ts.any (fun t => containsSub t.toList low)

/-- Whether a lower-cased line contains any of the parser's trigger
substrings. -/
def hasAnyTrigger (low : List Char) : Bool :=
  hasTrig summaryTriggers low || hasTrig contentTriggers low ||
  hasTrig hashtagTriggers low || hasTrig visualTriggers low ||
  hasTrig analyticsTriggers low || hasTrig trendsTriggers low

/-- The two-character marker `##`. -/
def dblHash : List Char := ['#', '#']

/-- The two-character marker `**`. -/
def dblStar : List Char := ['*', '*']

/-- `sections[sec] += line + "\n"`. -/
def addLine (acc : SecAcc) (sec : SectionTag) (line : List Char) : SecAcc :=
  fun s => if s = sec then acc s ++ line ++ ['\n'] else acc s

/-- The body of `parse_agent_response`'s per-line loop: strip the line, skip
it if empty, switch section on the first matching trigger family (checked in
the source's fixed order), otherwise accumulate it subject to the `##`/`**`
filters (with the looser rule inside the content section). -/
def processLine (st : SectionTag × SecAcc) (rawLine : List Char) : SectionTag × SecAcc :=
  let line := pyStrip rawLine
  if line = [] then st
  else
    let low := line.map Char.toLower
    if hasTrig summaryTriggers low then (SectionTag.summary, st.2)
    else if hasTrig contentTriggers low then (SectionTag.content, st.2)
    else if hasTrig hashtagTriggers low then (SectionTag.hashtags, st.2)
    else if hasTrig visualTriggers low then (SectionTag.visual_concepts, st.2)
    else if hasTrig analyticsTriggers low then (SectionTag.analytics, st.2)
    else if hasTrig trendsTriggers low then (SectionTag.trends, st.2)
    else if (lstartsWith dblHash line = false ∧ lstartsWith dblStar line = false)
        ∨ st.1 = SectionTag.content then
      if st.1 = SectionTag.content ∧ lstartsWith dblHash line = true then st
      else (st.1, addLine st.2 st.1 line)
    else st

/-- A short bolded label: starts and ends with `**` and has at most three
whitespace-separated tokens. -/
def isShortBold (line : List Char) : Bool :=
  lstartsWith dblStar line && lendsWith dblStar line &&
  decide ((split_words line).length ≤ 3)

/-- The final cleanup `parse_agent_response` applies to the content section:
strip; if non-empty, drop lines starting with `##` and short bolded labels,
rejoin and strip again. -/
def finalizeContent (l : List Char) : List Char :=
  let s := pyStrip l
  if s = [] then s
  else
    let kept := ((splitLines s).map pyStrip).filter
      (fun line => !(lstartsWith dblHash line) && !(isShortBold line))
    pyStrip (joinSep kept)

/-- The record returned by `parse_agent_response`. -/
structure ParsedSections where
  summary : String
  content : String
  hashtags : String
  visual_concepts : String
  analytics : String
  trends : String
deriving DecidableEq

/-- The parser's line loop: fold `processLine` over the lines of the response,
starting in the summary section with all accumulators empty. -/
def parse_core (r : List Char) : SectionTag × SecAcc :=
  (splitLines r).foldl processLine (SectionTag.summary, fun _ => [])

/-- `parse_agent_response(response)` from `utils.py`. -/
def parse_agent_response (response : String) : ParsedSections :=
  let st := parse_core response.toList
  { summary := String.mk (pyStrip (st.2 SectionTag.summary))
    content := String.mk (finalizeContent (st.2 SectionTag.content))
    hashtags := String.mk (pyStrip (st.2 SectionTag.hashtags))
    visual_concepts := String.mk (pyStrip (st.2 SectionTag.visual_concepts))
    analytics := String.mk (pyStrip (st.2 SectionTag.analytics))
    trends := String.mk (pyStrip (st.2 SectionTag.trends)) }

/-- A `datetime.now()` value (CPython guarantees `1 <= year <= 9999` and the
usual calendar bounds on the other fields). -/
structure PyDateTime where
  year : Nat
  month : Nat
  day : Nat
  hour : Nat
  minute : Nat
  second : Nat

/-- `datetime.strftime("%Y%m%d_%H%M%S")`. -/
def timestamp_chars (t : PyDateTime) : List Char :=
  padZ 4 t.year ++ padZ 2 t.month ++ padZ 2 t.day ++
  '_' :: (padZ 2 t.hour ++ padZ 2 t.minute ++ padZ 2 t.second)

/-- A character kept by `create_download_filename`'s topic cleanup regex
`[^\w\s-]`. -/
def keepTopicChar (c : Char) : Bool :=
  pyWordChar c || pyIsSpace c || c == '-'

/-- The sanitized topic slug of `create_download_filename`: strip disallowed
characters, trim, collapse `[-\s]+` runs to single hyphens, truncate to 30. -/
def safe_topic_slug (topic : String) : List Char :=
  (collapseRuns (fun c => c == '-' || pyIsSpace c) '-'
    (pyStrip (topic.toList.filter keepTopicChar))).take 30

/-- The sanitized platform part: `platform.replace('/', '_').lower()`. -/
def safe_platform_name (platform : String) : List Char :=
  (platform.toList.map (fun c => if c = '/' then '_' else c)).map Char.toLower

/-- `create_download_filename(topic, platform, file_type)` from `utils.py`,
with the wall-clock time passed explicitly. -/
def create_download_filename (topic platform file_type : String)
    (now : PyDateTime) : String :=
  String.mk (("social_media_").toList ++ safe_topic_slug topic ++
    '_' :: safe_platform_name platform ++ '_' :: timestamp_chars now ++
    '.' :: file_type.toList)

/-- The per-platform limit rows of `get_platform_limits`. -/
def platform_limit_table : List (String × List (String × Nat)) :=
  [("Instagram", [("caption", 2200), ("bio", 150), ("hashtags", 30)]),
   ("Twitter/X", [("post", 280), ("bio", 160), ("hashtags", 2)]),
   ("LinkedIn", [("post", 3000), ("headline", 220), ("hashtags", 5)]),
   ("Facebook", [("post", 63206), ("bio", 101), ("hashtags", 30)]),
   ("TikTok", [("caption", 2200), ("bio", 80), ("hashtags", 5)]),
   ("YouTube", [("description", 5000), ("title", 100), ("hashtags", 15)]),
   ("General", [("post", 2000), ("bio", 150), ("hashtags", 10)])]

/-- The fallback row `limits["General"]`. -/
def general_limits : List (String × Nat) :=
  [("post", 2000), ("bio", 150), ("hashtags", 10)]

/-- `get_platform_limits(platform)` from `utils.py`:
`limits.get(platform, limits["General"])`. -/
def get_platform_limits (platform : String) : List (String × Nat) :=
  (List.lookup platform platform_limit_table).getD general_limits

/-- `validate_content_length(content, platform, content_type)` from
`utils.py`. -/
def validate_content_length (content platform content_type : String) : Bool × String :=
  let limits := get_platform_limits platform
  let limit := (List.lookup content_type limits).getD 2000
  let n := content.length
  if limit < n then
    (false, String.mk (("Content exceeds ").toList ++ platform.toList ++
      (" ").toList ++ content_type.toList ++ (" limit of ").toList ++
      decRepr limit ++ (" characters (").toList ++ decRepr n ++
      ("/").toList ++ decRepr limit ++ (")").toList))
  else
    (true, String.mk (("Content length OK (").toList ++ decRepr n ++
      ("/").toList ++ decRepr limit ++ (" characters)").toList))

/-- Whether a raw line of the response, once trimmed and lower-cased, contains
no trigger substring. -/
def lineNoTrigger (raw : List Char) : Bool :=
  !(hasAnyTrigger ((pyStrip raw).map Char.toLower))

/-- Whether no line of the input contains a trigger substring (after trimming
and lower-casing). -/
def noTriggerLines (r : String) : Bool :=
  (splitLines r.toList).all lineNoTrigger

/-- Whether no trimmed line of the input starts with `##` or `**`. -/
def noMarkerLines (r : String) : Bool :=
  (splitLines r.toList).all
    (fun raw => !(lstartsWith dblHash (pyStrip raw)) && !(lstartsWith dblStar (pyStrip raw)))

/-- The non-empty trimmed lines of the input, in order. -/
def goodLines (r : String) : List (List Char) :=
  ((splitLines r.toList).map pyStrip).filter (fun l => !l.isEmpty)

/-- The lines of a string (split at `'\n'`). -/
def strLines (s : String) : List (List Char) := splitLines s.toList

/-- Whether no line of the string starts with `##` or with `**`. -/
def noHeaderMarks (s : String) : Bool :=
  (strLines s).all (fun l => !(lstartsWith dblHash l) && !(lstartsWith dblStar l))

/-- Whether no line of the string starts with `##`. -/
def noHashMarks (s : String) : Bool :=
  (strLines s).all (fun l => !(lstartsWith dblHash l))

/-- A line as it sits in a section accumulator: non-empty, free of `'\n'`, and
with non-whitespace first and last characters. -/
def GoodLine (l : List Char) : Prop :=
  l ≠ [] ∧ (∀ c, l.head? = some c → pyIsSpace c = false) ∧
  (∀ c, l.getLast? = some c → pyIsSpace c = false) ∧ '\n' ∉ l

/-- The filter a line had to pass to be accumulated into section `s`. -/
def keepPred (s : SectionTag) (l : List Char) : Prop :=
  lstartsWith dblHash l = false ∧
  (s = SectionTag.content ∨ lstartsWith dblStar l = false)

/-- The parser-state invariant: every accumulator is a newline-terminated
concatenation of good lines that passed their section's filter. -/
def ParseInv (st : SectionTag × SecAcc) : Prop :=
  ∀ s, ∃ ls, st.2 s = accJoin ls ∧ ∀ l ∈ ls, GoodLine l ∧ keepPred s l

/-! Basic lemmas about the string helpers. -/

theorem stripL_head (l : List Char) (c : Char) (h : (stripL l).head? = some c) :
    pyIsSpace c = false := by
  induction l with
  | nil => simp [stripL] at h
  | cons a as ih =>
    by_cases ha : pyIsSpace a = true
    · rw [show stripL (a :: as) = stripL as by simp [stripL, ha]] at h
      exact ih h
    · rw [show stripL (a :: as) = a :: as by simp [stripL, ha]] at h
      simp only [List.head?_cons, Option.some.injEq] at h
      subst h
      simpa using ha

theorem stripL_mem (l : List Char) (a : Char) (h : a ∈ stripL l) : a ∈ l := by
  induction l with
  | nil => simp [stripL] at h
  | cons b bs ih =>
    by_cases hb : pyIsSpace b = true
    · rw [show stripL (b :: bs) = stripL bs by simp [stripL, hb]] at h
      exact List.mem_cons_of_mem b (ih h)
    · rwa [show stripL (b :: bs) = b :: bs by simp [stripL, hb]] at h

theorem stripL_eq_self (c : Char) (cs : List Char) (h : pyIsSpace c = false) :
    stripL (c :: cs) = c :: cs := by
  simp [stripL, h]

theorem stripR_cons (c : Char) (cs : List Char) :
    stripR (c :: cs) = match stripR cs with
      | [] => if pyIsSpace c then [] else [c]
      | r => c :: r := rfl

theorem stripR_cons_of_ne (c : Char) (cs : List Char) (h : stripR cs ≠ []) :
    stripR (c :: cs) = c :: stripR cs := by
  rw [stripR_cons]
  cases hh : stripR cs with
  | nil => exact absurd hh h
  | cons a as => rfl

theorem stripR_getLast (m : List Char) (c : Char)
    (h : (stripR m).getLast? = some c) : pyIsSpace c = false := by
  induction m with
  | nil => simp [stripR] at h
  | cons a as ih =>
    cases h2 : stripR as with
    | nil =>
      rw [stripR_cons, h2] at h
      by_cases ha : pyIsSpace a = true
      · simp [ha] at h
      · simp only [ha, if_false, Bool.false_eq_true] at h
        simp only [List.getLast?_singleton, Option.some.injEq] at h
        subst h
        simpa using ha
    | cons b bs =>
      rw [stripR_cons_of_ne a as (by simp [h2]), h2] at h
      rw [List.getLast?_cons_cons] at h
      exact ih (by rw [h2]; exact h)

theorem stripR_head (m : List Char) (c : Char)
    (h : (stripR m).head? = some c) : m.head? = some c := by
  induction m with
  | nil => simp [stripR] at h
  | cons a as ih =>
    cases h2 : stripR as with
    | nil =>
      rw [stripR_cons, h2] at h
      by_cases ha : pyIsSpace a = true
      · simp [ha] at h
      · simp only [ha, if_false, Bool.false_eq_true] at h
        simpa using h
    | cons b bs =>
      rw [stripR_cons_of_ne a as (by simp [h2])] at h
      simpa using h

theorem stripR_mem (m : List Char) (a : Char) (h : a ∈ stripR m) : a ∈ m := by
  induction m with
  | nil => simp [stripR] at h
  | cons b bs ih =>
    cases h2 : stripR bs with
    | nil =>
      rw [stripR_cons, h2] at h
      by_cases hb : pyIsSpace b = true
      · simp [hb] at h
      · simp only [hb, if_false, Bool.false_eq_true] at h
        simp only [List.mem_singleton] at h
        subst h
        exact List.mem_cons_self a bs
    | cons x xs =>
      rw [stripR_cons_of_ne b bs (by simp [h2])] at h
      rcases List.mem_cons.mp h with h | h
      · subst h; exact List.mem_cons_self a bs
      · exact List.mem_cons_of_mem b (ih h)

theorem stripR_eq_self (m : List Char) (c : Char) (hl : m.getLast? = some c)
    (hc : pyIsSpace c = false) : stripR m = m := by
  induction m with
  | nil => simp at hl
  | cons a as ih =>
    cases as with
    | nil =>
      simp only [List.getLast?_singleton, Option.some.injEq] at hl
      subst hl
      rw [stripR_cons]
      simp [stripR, hc]
    | cons b bs =>
      rw [List.getLast?_cons_cons] at hl
      have h2 : stripR (b :: bs) = b :: bs := ih hl
      rw [stripR_cons_of_ne a (b :: bs) (by simp [h2]), h2]

theorem stripR_append (u v : List Char) :
    stripR (u ++ v) = if stripR v = [] then stripR u else u ++ stripR v := by
  induction u with
  | nil =>
    by_cases h : stripR v = [] <;> simp [h, stripR]
  | cons a u' ih =>
    by_cases hv : stripR v = []
    · rw [List.cons_append, stripR_cons, ih, if_pos hv, ← stripR_cons, if_pos hv]
    · have hne : stripR (u' ++ v) ≠ [] := by
        rw [ih, if_neg hv]
        intro hc
        exact hv (List.append_eq_nil.mp hc).2
      rw [List.cons_append, stripR_cons_of_ne a (u' ++ v) hne, ih, if_neg hv,
        if_neg hv, List.cons_append]

theorem pyStrip_head (l : List Char) (c : Char) (h : (pyStrip l).head? = some c) :
    pyIsSpace c = false := by
  exact stripL_head l c (stripR_head (stripL l) c h)

theorem pyStrip_getLast (l : List Char) (c : Char)
    (h : (pyStrip l).getLast? = some c) : pyIsSpace c = false :=
  stripR_getLast (stripL l) c h

theorem pyStrip_mem (l : List Char) (a : Char) (h : a ∈ pyStrip l) : a ∈ l :=
  stripL_mem l a (stripR_mem (stripL l) a h)

theorem pyStrip_eq_self (l : List Char)
    (h1 : ∀ c, l.head? = some c → pyIsSpace c = false)
    (h2 : ∀ c, l.getLast? = some c → pyIsSpace c = false) :
    pyStrip l = l := by
  cases l with
  | nil => rfl
  | cons a as =>
    have ha : pyIsSpace a = false := h1 a rfl
    have hL : stripL (a :: as) = a :: as := stripL_eq_self a as ha
    rw [pyStrip, hL]
    cases hgl : (a :: as).getLast? with
    | none => simp at hgl
    | some c => exact stripR_eq_self (a :: as) c hgl (h2 c hgl)

theorem pyStrip_idem (l : List Char) : pyStrip (pyStrip l) = pyStrip l := by
  exact pyStrip_eq_self (pyStrip l) (fun c hc => pyStrip_head l c hc)
    (fun c hc => pyStrip_getLast l c hc)

theorem goodLine_pyStrip (raw : List Char) (hne : pyStrip raw ≠ [])
    (hnl : '\n' ∉ raw) : GoodLine (pyStrip raw) := by
  refine ⟨hne, fun c hc => pyStrip_head raw c hc,
    fun c hc => pyStrip_getLast raw c hc, fun hmem => hnl (pyStrip_mem raw _ hmem)⟩

theorem goodLine_pyStrip_self (l : List Char) (h : GoodLine l) : pyStrip l = l :=
  pyStrip_eq_self l h.2.1 h.2.2.1

/-! Lemmas about run collapsing. -/

theorem crGo_idem (p : Char → Bool) (rep : Char) (hrep : p rep = true) :
    ∀ (l : List Char) (b : Bool), crGo p rep b (crGo p rep b l) = crGo p rep b l := by
  intro l
  induction l with
  | nil => intro b; rfl
  | cons c cs ih =>
    intro b
    by_cases hc : p c = true
    · cases b with
      | true =>
        rw [show crGo p rep true (c :: cs) = crGo p rep true cs by simp [crGo, hc]]
        exact ih true
      | false =>
        rw [show crGo p rep false (c :: cs) = rep :: crGo p rep true cs by
          simp [crGo, hc]]
        rw [show crGo p rep false (rep :: crGo p rep true cs) =
            rep :: crGo p rep true (crGo p rep true cs) by simp [crGo, hrep]]
        rw [ih true]
    · rw [show crGo p rep b (c :: cs) = c :: crGo p rep false cs by simp [crGo, hc]]
      rw [show crGo p rep b (c :: crGo p rep false cs) =
          c :: crGo p rep false (crGo p rep false cs) by simp [crGo, hc]]
      rw [ih false]

theorem crGo_mem (p : Char → Bool) (rep : Char) :
    ∀ (l : List Char) (b : Bool) (a : Char), a ∈ crGo p rep b l → a ∈ l ∨ a = rep := by
  intro l
  induction l with
  | nil => intro b a h; simp [crGo] at h
  | cons c cs ih =>
    intro b a h
    by_cases hc : p c = true
    · cases b with
      | true =>
        rw [show crGo p rep true (c :: cs) = crGo p rep true cs by simp [crGo, hc]] at h
        rcases ih true a h with h | h
        · exact Or.inl (List.mem_cons_of_mem c h)
        · exact Or.inr h
      | false =>
        rw [show crGo p rep false (c :: cs) = rep :: crGo p rep true cs by
          simp [crGo, hc]] at h
        rcases List.mem_cons.mp h with h | h
        · exact Or.inr h
        · rcases ih true a h with h | h
          · exact Or.inl (List.mem_cons_of_mem c h)
          · exact Or.inr h
    · rw [show crGo p rep b (c :: cs) = c :: crGo p rep false cs by simp [crGo, hc]] at h
      rcases List.mem_cons.mp h with h | h
      · exact Or.inl (h ▸ List.mem_cons_self c cs)
      · rcases ih false a h with h | h
        · exact Or.inl (List.mem_cons_of_mem c h)
        · exact Or.inr h

theorem crGo_getLast (p : Char → Bool) (rep : Char) :
    ∀ (l : List Char) (b : Bool) (c : Char), l.getLast? = some c → p c = false →
      (crGo p rep b l).getLast? = some c := by
  intro l
  induction l with
  | nil => intro b c h; simp at h
  | cons a as ih =>
    intro b c h hc
    cases as with
    | nil =>
      simp only [List.getLast?_singleton, Option.some.injEq] at h
      subst h
      simp [crGo, hc]
    | cons a2 as2 =>
      rw [List.getLast?_cons_cons] at h
      have hne : ∀ b2, (crGo p rep b2 (a2 :: as2)).getLast? = some c := fun b2 =>
        ih b2 c h hc
      have hnenil : ∀ b2, crGo p rep b2 (a2 :: as2) ≠ [] := by
        intro b2 hnil
        have := hne b2
        rw [hnil] at this
        simp at this
      by_cases ha : p a = true
      · cases b with
        | true =>
          rw [show crGo p rep true (a :: a2 :: as2) = crGo p rep true (a2 :: as2) by
            simp [crGo, ha]]
          exact hne true
        | false =>
          rw [show crGo p rep false (a :: a2 :: as2) =
              rep :: crGo p rep true (a2 :: as2) by simp [crGo, ha]]
          cases hcr : crGo p rep true (a2 :: as2) with
          | nil => exact absurd hcr (hnenil true)
          | cons x xs =>
            rw [List.getLast?_cons_cons]
            rw [← hcr]
            exact hne true
      · rw [show crGo p rep b (a :: a2 :: as2) =
            a :: crGo p rep false (a2 :: as2) by simp [crGo, ha]]
        cases hcr : crGo p rep false (a2 :: as2) with
        | nil => exact absurd hcr (hnenil false)
        | cons x xs =>
          rw [List.getLast?_cons_cons]
          rw [← hcr]
          exact hne false

/-! Lemmas about joining and splitting lines. -/

theorem accJoin_nil : accJoin [] = [] := rfl

theorem accJoin_cons (l : List Char) (ls : List (List Char)) :
    accJoin (l :: ls) = l ++ '\n' :: accJoin ls := rfl

theorem accJoin_append (xs ys : List (List Char)) :
    accJoin (xs ++ ys) = accJoin xs ++ accJoin ys := by
  induction xs with
  | nil => simp [accJoin]
  | cons l ls ih => simp [accJoin_cons, ih]

theorem accJoin_concat (ls : List (List Char)) (x : List Char) :
    accJoin (ls ++ [x]) = accJoin ls ++ x ++ ['\n'] := by
  rw [accJoin_append]
  simp [accJoin_cons, accJoin_nil, List.append_assoc]

theorem joinSep_cons_cons (l l2 : List Char) (ls : List (List Char)) :
    joinSep (l :: l2 :: ls) = l ++ '\n' :: joinSep (l2 :: ls) := rfl

theorem joinSep_ne_nil (l : List Char) (ls : List (List Char)) (h : l ≠ []) :
    joinSep (l :: ls) ≠ [] := by
  cases ls with
  | nil => simpa [joinSep] using h
  | cons l2 ls2 =>
    rw [joinSep_cons_cons]
    intro hc
    exact h (List.append_eq_nil.mp hc).1

theorem stripR_accJoin (ls : List (List Char)) (h : ∀ l ∈ ls, GoodLine l) :
    stripR (accJoin ls) = joinSep ls := by
  induction ls with
  | nil => rfl
  | cons l rest ih =>
    have hgl : GoodLine l := h l (List.mem_cons_self l rest)
    have hrest : ∀ l2 ∈ rest, GoodLine l2 := fun l2 h2 => h l2 (List.mem_cons_of_mem l h2)
    rw [accJoin_cons, stripR_append]
    cases rest with
    | nil =>
      have h1 : stripR ('\n' :: accJoin ([] : List (List Char))) = [] := by
        decide
      rw [h1, if_pos rfl]
      have : ∃ c, l.getLast? = some c := by
        cases hgl' : l.getLast? with
        | none =>
          rw [List.getLast?_eq_none_iff] at hgl'
          exact absurd hgl' hgl.1
        | some c => exact ⟨c, rfl⟩
      obtain ⟨c, hc⟩ := this
      rw [show joinSep [l] = l from rfl]
      exact stripR_eq_self l c hc (hgl.2.2.1 c hc)
    | cons r0 rest' =>
      have hr0 : GoodLine r0 := hrest r0 (List.mem_cons_self r0 rest')
      have hjne : joinSep (r0 :: rest') ≠ [] := joinSep_ne_nil r0 rest' hr0.1
      have hsr : stripR (accJoin (r0 :: rest')) = joinSep (r0 :: rest') := ih hrest
      have hsrne : stripR (accJoin (r0 :: rest')) ≠ [] := by rw [hsr]; exact hjne
      have h2 : stripR ('\n' :: accJoin (r0 :: rest')) =
          '\n' :: stripR (accJoin (r0 :: rest')) :=
        stripR_cons_of_ne '\n' _ hsrne
      have h2ne : stripR ('\n' :: accJoin (r0 :: rest')) ≠ [] := by
        rw [h2]; exact List.cons_ne_nil _ _
      rw [if_neg h2ne, h2, hsr, joinSep_cons_cons]

theorem pyStrip_accJoin (ls : List (List Char)) (h : ∀ l ∈ ls, GoodLine l) :
    pyStrip (accJoin ls) = joinSep ls := by
  cases ls with
  | nil => rfl
  | cons l rest =>
    have hgl : GoodLine l := h l (List.mem_cons_self l rest)
    rw [pyStrip]
    cases l with
    | nil => exact absurd rfl hgl.1
    | cons a as =>
      have ha : pyIsSpace a = false := hgl.2.1 a rfl
      rw [accJoin_cons, List.cons_append, stripL_eq_self a _ ha,
        ← List.cons_append, ← accJoin_cons]
      exact stripR_accJoin _ h

theorem pyStrip_joinSep (ls : List (List Char)) (h : ∀ l ∈ ls, GoodLine l) :
    pyStrip (joinSep ls) = joinSep ls := by
  rw [← pyStrip_accJoin ls h, pyStrip_idem]

theorem splitLines_no_nl (l : List Char) (h : '\n' ∉ l) : splitLines l = [l] := by
  induction l with
  | nil => rfl
  | cons c cs ih =>
    have hc : c ≠ '\n' := fun hc => h (hc ▸ List.mem_cons_self c cs)
    have hcs : '\n' ∉ cs := fun h2 => h (List.mem_cons_of_mem c h2)
    simp [splitLines, hc, ih hcs]

theorem splitLines_append_nl (l t : List Char) (h : '\n' ∉ l) :
    splitLines (l ++ '\n' :: t) = l :: splitLines t := by
  induction l with
  | nil => simp [splitLines]
  | cons c cs ih =>
    have hc : c ≠ '\n' := fun hc => h (hc ▸ List.mem_cons_self c cs)
    have hcs : '\n' ∉ cs := fun h2 => h (List.mem_cons_of_mem c h2)
    simp [splitLines, hc, ih hcs]

theorem splitLines_joinSep (ls : List (List Char)) (hne : ls ≠ [])
    (h : ∀ l ∈ ls, '\n' ∉ l) : splitLines (joinSep ls) = ls := by
  induction ls with
  | nil => exact absurd rfl hne
  | cons l rest ih =>
    cases rest with
    | nil =>
      rw [show joinSep [l] = l from rfl]
      exact splitLines_no_nl l (h l (List.mem_cons_self l []))
    | cons r0 rest' =>
      rw [joinSep_cons_cons,
        splitLines_append_nl l _ (h l (List.mem_cons_self l _)),
        ih (List.cons_ne_nil r0 rest')
          (fun l2 h2 => h l2 (List.mem_cons_of_mem l h2))]

theorem splitLines_ne_nil (r : List Char) : splitLines r ≠ [] := by
  induction r with
  | nil => simp [splitLines]
  | cons c cs ih =>
    by_cases hc : c = '\n' <;> simp [splitLines, hc]

theorem splitLines_mem_no_nl (r : List Char) (l : List Char)
    (h : l ∈ splitLines r) : '\n' ∉ l := by
  induction r generalizing l with
  | nil =>
    simp only [splitLines, List.mem_singleton] at h
    subst h
    exact List.not_mem_nil '\n'
  | cons c cs ih =>
    by_cases hc : c = '\n'
    · rw [show splitLines (c :: cs) = [] :: splitLines cs by simp [splitLines, hc]] at h
      rcases List.mem_cons.mp h with h | h
      · subst h; exact List.not_mem_nil '\n'
      · exact ih l h
    · cases hsp : splitLines cs with
      | nil => exact absurd hsp (splitLines_ne_nil cs)
      | cons x xs =>
        rw [show splitLines (c :: cs) = (c :: x) :: xs by
          simp [splitLines, hc, hsp]] at h
        rcases List.mem_cons.mp h with h | h
        · subst h
          intro hmem
          rcases List.mem_cons.mp hmem with h2 | h2
          · exact hc h2.symm
          · exact ih x (by rw [hsp]; exact List.mem_cons_self x xs) h2
        · exact ih l (by rw [hsp]; exact List.mem_cons_of_mem x h)

/-! Lemmas about the parser's line loop. -/

theorem toList_mk (l : List Char) : (String.mk l).toList = l := rfl

theorem processLine_of_empty (st : SectionTag × SecAcc) (raw : List Char)
    (h : pyStrip raw = []) : processLine st raw = st := by
  simp [processLine, h]

theorem parseInv_init : ParseInv (SectionTag.summary, fun _ => []) := by
  intro s
  exact ⟨[], rfl, by simp⟩

theorem parseInv_addLine (st : SectionTag × SecAcc) (line : List Char)
    (hInv : ParseInv st) (hg : GoodLine line) (hk : keepPred st.1 line) :
    ParseInv (st.1, addLine st.2 st.1 line) := by
  intro s
  obtain ⟨ls, hls, hmem⟩ := hInv s
  by_cases hs : s = st.1
  · refine ⟨ls ++ [line], ?_, ?_⟩
    · show (if s = st.1 then st.2 s ++ line ++ ['\n'] else st.2 s) = _
      rw [if_pos hs, hls, accJoin_concat]
    · intro l hl
      rcases List.mem_append.mp hl with hl | hl
      · exact hmem l hl
      · rw [List.mem_singleton] at hl
        subst hl
        exact ⟨hg, hs ▸ hk⟩
  · refine ⟨ls, ?_, hmem⟩
    show (if s = st.1 then st.2 s ++ line ++ ['\n'] else st.2 s) = _
    rw [if_neg hs, hls]

theorem parseInv_processLine (st : SectionTag × SecAcc) (raw : List Char)
    (hnl : '\n' ∉ raw) (hInv : ParseInv st) : ParseInv (processLine st raw) := by
  by_cases hne : pyStrip raw = []
  · rw [processLine_of_empty st raw hne]
    exact hInv
  · simp only [processLine]
    rw [if_neg hne]
    split_ifs with h1 h2 h3 h4 h5 h6 h7 h8
    · exact hInv
    · exact hInv
    · exact hInv
    · exact hInv
    · exact hInv
    · exact hInv
    · exact hInv
    · refine parseInv_addLine st (pyStrip raw) hInv
        (goodLine_pyStrip raw hne hnl) ⟨?_, ?_⟩
      · by_cases hc : st.1 = SectionTag.content
        · rcases hb : lstartsWith dblHash (pyStrip raw) with _ | _
          · rfl
          · exact absurd ⟨hc, hb⟩ h8
        · rcases h7 with h7 | h7
          · exact h7.1
          · exact absurd h7 hc
      · by_cases hc : st.1 = SectionTag.content
        · exact Or.inl hc
        · rcases h7 with h7 | h7
          · exact Or.inr h7.2
          · exact absurd h7 hc
    · exact hInv

theorem parseInv_foldl (lines : List (List Char)) (st : SectionTag × SecAcc)
    (h : ∀ raw ∈ lines, '\n' ∉ raw) (hInv : ParseInv st) :
    ParseInv (lines.foldl processLine st) := by
  induction lines generalizing st with
  | nil => exact hInv
  | cons raw rest ih =>
    rw [List.foldl_cons]
    exact ih (processLine st raw)
      (fun r hr => h r (List.mem_cons_of_mem raw hr))
      (parseInv_processLine st raw (h raw (List.mem_cons_self raw rest)) hInv)

theorem parseInv_parse_core (r : List Char) : ParseInv (parse_core r) := by
  rw [parse_core]
  exact parseInv_foldl (splitLines r) _
    (fun raw hr => splitLines_mem_no_nl r raw hr) parseInv_init

theorem noHeaderMarks_of_good (ls : List (List Char))
    (hG : ∀ l ∈ ls, GoodLine l)
    (hK : ∀ l ∈ ls, lstartsWith dblHash l = false ∧ lstartsWith dblStar l = false) :
    noHeaderMarks (String.mk (pyStrip (accJoin ls))) = true := by
  rw [noHeaderMarks, strLines, toList_mk, pyStrip_accJoin ls hG]
  cases ls with
  | nil => decide
  | cons l rest =>
    rw [splitLines_joinSep (l :: rest) (List.cons_ne_nil l rest)
      (fun x hx => (hG x hx).2.2.2), List.all_eq_true]
    intro x hx
    obtain ⟨k1, k2⟩ := hK x hx
    simp [k1, k2]

theorem noHashMarks_of_good (ls : List (List Char))
    (hG : ∀ l ∈ ls, GoodLine l)
    (hK : ∀ l ∈ ls, lstartsWith dblHash l = false) :
    noHashMarks (String.mk (finalizeContent (accJoin ls))) = true := by
  rw [noHashMarks, strLines, toList_mk]
  cases ls with
  | nil => decide
  | cons l rest =>
    have hjs : pyStrip (accJoin (l :: rest)) = joinSep (l :: rest) :=
      pyStrip_accJoin _ hG
    have hjne : joinSep (l :: rest) ≠ [] :=
      joinSep_ne_nil l rest (hG l (List.mem_cons_self l rest)).1
    have hmap : (l :: rest).map pyStrip = l :: rest := by
      have h1 : (l :: rest).map pyStrip = (l :: rest).map id :=
        List.map_congr_left (fun x hx => goodLine_pyStrip_self x (hG x hx))
      rw [h1, List.map_id]
    simp only [finalizeContent, hjs]
    rw [if_neg hjne,
      splitLines_joinSep (l :: rest) (List.cons_ne_nil l rest)
        (fun x hx => (hG x hx).2.2.2), hmap]
    have hkg : ∀ x ∈ (l :: rest).filter
        (fun line => !(lstartsWith dblHash line) && !(isShortBold line)),
        GoodLine x := fun x hx => hG x (List.mem_of_mem_filter hx)
    rw [pyStrip_joinSep _ hkg]
    cases hk : (l :: rest).filter
        (fun line => !(lstartsWith dblHash line) && !(isShortBold line)) with
    | nil => decide
    | cons k ks =>
      rw [splitLines_joinSep (k :: ks) (List.cons_ne_nil k ks)
        (fun x hx => (hkg x (hk ▸ hx)).2.2.2), List.all_eq_true]
      intro x hx
      have hxk := hK x (List.mem_of_mem_filter (hk ▸ hx))
      simp [hxk]

/-! Claim C9. -/

/-- C9: for every input string, in the record returned by
`parse_agent_response` no line of the summary, hashtags, visual_concepts,
analytics, or trends field starts with `##` or with `**`, and no line of the
content field starts with `##` — header-looking lines never leak into the
parser's output. -/
theorem c9_no_header_leak (r : String) :
    noHeaderMarks (parse_agent_response r).summary = true ∧
    noHeaderMarks (parse_agent_response r).hashtags = true ∧
    noHeaderMarks (parse_agent_response r).visual_concepts = true ∧
    noHeaderMarks (parse_agent_response r).analytics = true ∧
    noHeaderMarks (parse_agent_response r).trends = true ∧
    noHashMarks (parse_agent_response r).content = true := by
  have hInv := parseInv_parse_core r.toList
  have hfield : ∀ s, s ≠ SectionTag.content →
      noHeaderMarks (String.mk (pyStrip ((parse_core r.toList).2 s))) = true := by
    intro s hs
    obtain ⟨ls, hls, hmem⟩ := hInv s
    rw [hls]
    refine noHeaderMarks_of_good ls (fun l hl => (hmem l hl).1)
      (fun l hl => ⟨(hmem l hl).2.1, ?_⟩)
    rcases (hmem l hl).2.2 with h | h
    · exact absurd h hs
    · exact h
  have hcontent : noHashMarks (String.mk (finalizeContent
      ((parse_core r.toList).2 SectionTag.content))) = true := by
    obtain ⟨ls, hls, hmem⟩ := hInv SectionTag.content
    rw [hls]
    exact noHashMarks_of_good ls (fun l hl => (hmem l hl).1)
      (fun l hl => (hmem l hl).2.1)
  exact ⟨hfield SectionTag.summary (by decide), hfield SectionTag.hashtags (by decide),
    hfield SectionTag.visual_concepts (by decide), hfield SectionTag.analytics (by decide),
    hfield SectionTag.trends (by decide), hcontent⟩

/-! Claims C1, C2, C3 on the parser. -/

theorem processLine_accumulate (st : SectionTag × SecAcc) (raw : List Char)
    (hne : pyStrip raw ≠ [])
    (ht : hasAnyTrigger ((pyStrip raw).map Char.toLower) = false)
    (hsec : st.1 ≠ SectionTag.content)
    (hh : lstartsWith dblHash (pyStrip raw) = false)
    (hs : lstartsWith dblStar (pyStrip raw) = false) :
    processLine st raw = (st.1, addLine st.2 st.1 (pyStrip raw)) := by
  obtain ⟨⟨⟨⟨⟨t1, t2⟩, t3⟩, t4⟩, t5⟩, t6⟩ :
      ((((hasTrig summaryTriggers ((pyStrip raw).map Char.toLower) = false ∧
      hasTrig contentTriggers ((pyStrip raw).map Char.toLower) = false) ∧
      hasTrig hashtagTriggers ((pyStrip raw).map Char.toLower) = false) ∧
      hasTrig visualTriggers ((pyStrip raw).map Char.toLower) = false) ∧
      hasTrig analyticsTriggers ((pyStrip raw).map Char.toLower) = false) ∧
      hasTrig trendsTriggers ((pyStrip raw).map Char.toLower) = false := by
    simpa [hasAnyTrigger, Bool.or_eq_false_iff] using ht
  simp only [processLine]
  rw [if_neg hne, if_neg (by simp [t1]), if_neg (by simp [t2]), if_neg (by simp [t3]),
    if_neg (by simp [t4]), if_neg (by simp [t5]), if_neg (by simp [t6]),
    if_pos (Or.inl ⟨hh, hs⟩), if_neg (fun hc => hsec hc.1)]

theorem c1_fold (lines : List (List Char)) (ls : List (List Char))
    (hT : ∀ raw ∈ lines, lineNoTrigger raw = true)
    (hM : ∀ raw ∈ lines, lstartsWith dblHash (pyStrip raw) = false ∧
      lstartsWith dblStar (pyStrip raw) = false) :
    lines.foldl processLine
      (SectionTag.summary, fun s => if s = SectionTag.summary then accJoin ls else []) =
    (SectionTag.summary, fun s => if s = SectionTag.summary
      then accJoin (ls ++ (lines.map pyStrip).filter (fun l => !l.isEmpty)) else []) := by
  induction lines generalizing ls with
  | nil => simp
  | cons raw rest ih =>
    have hTr : ∀ r2 ∈ rest, lineNoTrigger r2 = true :=
      fun r2 h => hT r2 (List.mem_cons_of_mem raw h)
    have hMr : ∀ r2 ∈ rest, lstartsWith dblHash (pyStrip r2) = false ∧
        lstartsWith dblStar (pyStrip r2) = false :=
      fun r2 h => hM r2 (List.mem_cons_of_mem raw h)
    rw [List.foldl_cons]
    by_cases hne : pyStrip raw = []
    · rw [processLine_of_empty _ raw hne, ih ls hTr hMr]
      have hie : (pyStrip raw).isEmpty = true := by rw [hne]; rfl
      simp [List.filter_cons, hie]
    · have htrig : hasAnyTrigger ((pyStrip raw).map Char.toLower) = false := by
        have := hT raw (List.mem_cons_self raw rest)
        rw [lineNoTrigger] at this
        simpa using this
      obtain ⟨hh, hs⟩ := hM raw (List.mem_cons_self raw rest)
      rw [processLine_accumulate (SectionTag.summary,
        fun s => if s = SectionTag.summary then accJoin ls else []) raw hne htrig
        (fun hc => SectionTag.noConfusion hc) hh hs]
      have hie : (pyStrip raw).isEmpty = false := by
        cases hpp : pyStrip raw with
        | nil => exact absurd hpp hne
        | cons a as => rfl
      show rest.foldl processLine (SectionTag.summary,
        addLine (fun s => if s = SectionTag.summary then accJoin ls else [])
          SectionTag.summary (pyStrip raw)) = _
      have haddeq : addLine (fun s => if s = SectionTag.summary then accJoin ls else [])
          SectionTag.summary (pyStrip raw) =
          fun s => if s = SectionTag.summary then accJoin (ls ++ [pyStrip raw]) else [] := by
        funext s
        rw [addLine]
        by_cases hs2 : s = SectionTag.summary
        · simp only [if_pos hs2, accJoin_concat]
        · simp only [if_neg hs2]
      rw [haddeq, ih (ls ++ [pyStrip raw]) hTr hMr]
      congr 1
      funext s
      by_cases hs2 : s = SectionTag.summary <;>
        simp [hs2, List.filter_cons, hie, List.append_assoc]

/-- C1 (amended): for every input whose trimmed lower-cased lines contain no
trigger substring and whose trimmed lines never start with `##` or `**`,
`parse_agent_response` accumulates every non-empty trimmed line into the
summary field (summary is that accumulated text trimmed) and leaves the other
five fields empty; `parse_agent_response("")` returns all six fields empty and
`parse_agent_response("no headers at all, just text")` returns that text in
summary with all other fields empty. -/
theorem c1_all_summary (r : String)
    (h1 : noTriggerLines r = true) (h2 : noMarkerLines r = true) :
    parse_agent_response r =
      ⟨String.mk (pyStrip (accJoin (goodLines r))), "", "", "", "", ""⟩ ∧
    parse_agent_response ("") = ⟨"", "", "", "", "", ""⟩ ∧
    parse_agent_response ("no headers at all, just text") =
      ⟨"no headers at all, just text", "", "", "", "", ""⟩ := by
  refine ⟨?_, by decide, by decide⟩
  have hT : ∀ raw ∈ splitLines r.toList, lineNoTrigger raw = true := by
    intro raw hr
    exact List.all_eq_true.mp h1 raw hr
  have hM : ∀ raw ∈ splitLines r.toList,
      lstartsWith dblHash (pyStrip raw) = false ∧
      lstartsWith dblStar (pyStrip raw) = false := by
    intro raw hr
    have := List.all_eq_true.mp h2 raw hr
    simp only [Bool.and_eq_true, Bool.not_eq_true'] at this
    exact this
  have hinit : (fun _ => ([] : List Char)) =
      fun s => if s = SectionTag.summary then accJoin [] else [] := by
    funext s
    by_cases hs : s = SectionTag.summary <;> simp [hs, accJoin_nil]
  have hAt : ∀ s, (parse_core r.toList).2 s =
      if s = SectionTag.summary then accJoin (goodLines r) else [] := by
    intro s
    rw [parse_core, hinit, c1_fold (splitLines r.toList) [] hT hM]
    simp [goodLines]
  simp only [parse_agent_response, hAt, ParsedSections.mk.injEq]
  refine ⟨?_, ?_, ?_, ?_, ?_, ?_⟩ <;> simp <;> try decide

/-- C1 counterexample: the input has no trigger line, yet the parser does NOT
place the entire response into summary: the line starting with `##` is
dropped, so summary is just the second line, not the accumulation of every
non-empty trimmed line. -/
theorem c1_cex :
    noTriggerLines ("## Random\nfoo") = true ∧
    (parse_agent_response ("## Random\nfoo")).summary = "foo" ∧
    String.mk (pyStrip (accJoin (goodLines ("## Random\nfoo")))) = "## Random\nfoo" ∧
    ("foo" : String) ≠ "## Random\nfoo" := by
  exact ⟨by decide, by decide, by decide, by decide⟩

/-- C1 witness: the amended theorem applied to the concrete headerless input. -/
theorem c1_wit :
    noTriggerLines ("no headers at all, just text") = true ∧
    noMarkerLines ("no headers at all, just text") = true ∧
    parse_agent_response ("no headers at all, just text") =
      ⟨String.mk (pyStrip (accJoin (goodLines ("no headers at all, just text")))),
        "", "", "", "", ""⟩ :=
  ⟨by decide, by decide,
    (c1_all_summary ("no headers at all, just text") (by decide) (by decide)).1⟩

/-- C2: on the four-line input with a content header, a body line, a hashtag
header and a hashtag line, the parser switches sections on the two headers
without accumulating them and files the two body lines under content and
hashtags respectively. -/
theorem c2_two_sections :
    parse_agent_response ("## 📝 Content\nHello world\n## 🏷️ Hashtag Strategy\n#Fun #Cool") =
      ⟨"", "Hello world", "#Fun #Cool", "", "", ""⟩ := by
  decide

/-- C3 (amended): in the per-line pass, for every trimmed non-empty line
matching no trigger substring: outside the content section the line is
accumulated iff it neither starts with `##` nor starts with `**` (a line
starting with `**` is skipped whether or not it also ends with `**` — the
starts-and-ends test only exists in the later content cleanup pass); inside
the content section the line is accumulated iff it does not start with
`##`. -/
theorem c3_per_line_filter (sec : SectionTag) (acc : SecAcc) (raw : List Char)
    (h1 : pyStrip raw ≠ [])
    (h2 : hasAnyTrigger ((pyStrip raw).map Char.toLower) = false) :
    processLine (sec, acc) raw =
      if sec = SectionTag.content then
        (if lstartsWith dblHash (pyStrip raw) = true then (sec, acc)
         else (sec, addLine acc sec (pyStrip raw)))
      else
        (if lstartsWith dblHash (pyStrip raw) = true ∨
            lstartsWith dblStar (pyStrip raw) = true then (sec, acc)
         else (sec, addLine acc sec (pyStrip raw))) := by
  obtain ⟨⟨⟨⟨⟨t1, t2⟩, t3⟩, t4⟩, t5⟩, t6⟩ :
      ((((hasTrig summaryTriggers ((pyStrip raw).map Char.toLower) = false ∧
      hasTrig contentTriggers ((pyStrip raw).map Char.toLower) = false) ∧
      hasTrig hashtagTriggers ((pyStrip raw).map Char.toLower) = false) ∧
      hasTrig visualTriggers ((pyStrip raw).map Char.toLower) = false) ∧
      hasTrig analyticsTriggers ((pyStrip raw).map Char.toLower) = false) ∧
      hasTrig trendsTriggers ((pyStrip raw).map Char.toLower) = false := by
    simpa [hasAnyTrigger, Bool.or_eq_false_iff] using h2
  simp only [processLine]
  rw [if_neg h1, if_neg (by simp [t1]), if_neg (by simp [t2]), if_neg (by simp [t3]),
    if_neg (by simp [t4]), if_neg (by simp [t5]), if_neg (by simp [t6])]
  split_ifs <;> first | rfl | simp_all

/-- C3 counterexample: with the parser in the summary section, the trimmed
non-trigger line given by the string made of two stars and the word half
starts with `**` but does not end with `**`; the original claim says it is
accumulated, yet the parser drops it and summary stays empty. -/
theorem c3_cex :
    lstartsWith dblStar (pyStrip (("**half").toList)) = true ∧
    lendsWith dblStar (pyStrip (("**half").toList)) = false ∧
    pyStrip (("**half").toList) ≠ [] ∧
    hasAnyTrigger ((pyStrip (("**half").toList)).map Char.toLower) = false ∧
    (parse_agent_response ("**half")).summary = "" ∧
    ("**half" : String) ≠ "" := by
  exact ⟨by decide, by decide, by decide, by decide, by decide, by decide⟩

/-- C3 witness: the amended per-line rule applied to a plain line in the
summary section. -/
theorem c3_wit :
    processLine (SectionTag.summary, fun _ => []) (("hello").toList) =
      (SectionTag.summary,
        addLine (fun _ => []) SectionTag.summary (pyStrip (("hello").toList))) := by
  rw [c3_per_line_filter SectionTag.summary (fun _ => []) (("hello").toList)
    (by decide) (by decide)]
  rw [if_neg (by decide), if_neg (by decide)]

/-! Claim C4: input validation. -/

/-- C4: `validate_input` is a total function checking, in order with the first
failure winning: empty/whitespace-only topic; trimmed length below 3; trimmed
length above 500; platform outside the 7-member enum; tone outside the
7-member enum; and returns valid with empty message otherwise. -/
theorem c4_validate_input (topic platform tone : String) :
    (pyStripS topic = "" →
      validate_input topic platform tone = (false, "Topic cannot be empty")) ∧
    (pyStripS topic ≠ "" → (pyStripS topic).length < 3 →
      validate_input topic platform tone =
        (false, "Topic must be at least 3 characters long")) ∧
    (3 ≤ (pyStripS topic).length → 500 < (pyStripS topic).length →
      validate_input topic platform tone =
        (false, "Topic must be less than 500 characters")) ∧
    (3 ≤ (pyStripS topic).length → (pyStripS topic).length ≤ 500 →
      platform ∉ valid_platforms →
      validate_input topic platform tone = (false, "Invalid platform selected")) ∧
    (3 ≤ (pyStripS topic).length → (pyStripS topic).length ≤ 500 →
      platform ∈ valid_platforms → tone ∉ valid_tones →
      validate_input topic platform tone = (false, "Invalid tone selected")) ∧
    (3 ≤ (pyStripS topic).length → (pyStripS topic).length ≤ 500 →
      platform ∈ valid_platforms → tone ∈ valid_tones →
      validate_input topic platform tone = (true, "")) := by
  have hempty : topic = "" → pyStripS topic = "" := by
    intro h
    rw [h]
    rfl
  refine ⟨?_, ?_, ?_, ?_, ?_, ?_⟩
  · intro h
    simp [validate_input, h]
  · intro hne hlt
    have h0 : ¬(topic = "" ∨ pyStripS topic = "") := by
      rintro (h | h)
      · exact hne (hempty h)
      · exact hne h
    simp [validate_input, h0, hlt]
  · intro hge hgt
    have hne : pyStripS topic ≠ "" := by
      intro he
      rw [he] at hge
      simp at hge
    have h0 : ¬(topic = "" ∨ pyStripS topic = "") := by
      rintro (h | h)
      · exact hne (hempty h)
      · exact hne h
    have h2 : ¬((pyStripS topic).length < 3) := by omega
    simp [validate_input, h0, h2, hgt]
  · intro hge hle hp
    have hne : pyStripS topic ≠ "" := by
      intro he
      rw [he] at hge
      simp at hge
    have h0 : ¬(topic = "" ∨ pyStripS topic = "") := by
      rintro (h | h)
      · exact hne (hempty h)
      · exact hne h
    have h2 : ¬((pyStripS topic).length < 3) := by omega
    have h3 : ¬(500 < (pyStripS topic).length) := by omega
    simp [validate_input, h0, h2, h3, hp]
  · intro hge hle hp ht
    have hne : pyStripS topic ≠ "" := by
      intro he
      rw [he] at hge
      simp at hge
    have h0 : ¬(topic = "" ∨ pyStripS topic = "") := by
      rintro (h | h)
      · exact hne (hempty h)
      · exact hne h
    have h2 : ¬((pyStripS topic).length < 3) := by omega
    have h3 : ¬(500 < (pyStripS topic).length) := by omega
    simp [validate_input, h0, h2, h3, hp, ht]
  · intro hge hle hp ht
    have hne : pyStripS topic ≠ "" := by
      intro he
      rw [he] at hge
      simp at hge
    have h0 : ¬(topic = "" ∨ pyStripS topic = "") := by
      rintro (h | h)
      · exact hne (hempty h)
      · exact hne h
    have h2 : ¬((pyStripS topic).length < 3) := by omega
    have h3 : ¬(500 < (pyStripS topic).length) := by omega
    simp [validate_input, h0, h2, h3, hp, ht]

/-- C4 witness: a valid topic, platform and tone pass validation. -/
theorem c4_wit : validate_input ("abc") ("Instagram") ("Casual") = (true, "") :=
  (c4_validate_input ("abc") ("Instagram") ("Casual")).2.2.2.2.2
    (by decide) (by decide) (by decide) (by decide)

/-! Claim C5: platform limits and content-length validation. -/

theorem lstartsWith_append_self (n b : List Char) : lstartsWith n (n ++ b) = true := by
  induction n with
  | nil => rfl
  | cons c cs ih => simp [lstartsWith, ih]

theorem containsSub_of_startsWith (n h : List Char) (hs : lstartsWith n h = true) :
    containsSub n h = true := by
  cases h with
  | nil => exact hs
  | cons c cs => simp [containsSub, hs]

theorem containsSub_of_append (a n b : List Char) :
    containsSub n (a ++ (n ++ b)) = true := by
  induction a with
  | nil =>
    rw [List.nil_append]
    exact containsSub_of_startsWith n (n ++ b) (lstartsWith_append_self n b)
  | cons c a' ih =>
    rw [List.cons_append]
    simp [containsSub, ih]

theorem containsSub_middle (n a b h : List Char) (he : h = a ++ (n ++ b)) :
    containsSub n h = true := by
  rw [he]
  exact containsSub_of_append a n b

/-- C5: `validate_content_length` passes iff the content's length is at most
the limit looked up for the content type (2000 when the key is absent); the
message reports currentLength/limit in both outcomes; `get_platform_limits`
returns the fixed rows for the seven known platforms and the General row for
every unknown platform; and 300 characters exceed the Twitter/X post limit of
280. -/
theorem c5_content_length (content platform content_type : String) :
    ((validate_content_length content platform content_type).1 =
      decide (content.length ≤
        ((List.lookup content_type (get_platform_limits platform)).getD 2000))) ∧
    containsSub (decRepr content.length ++ '/' ::
        decRepr ((List.lookup content_type (get_platform_limits platform)).getD 2000))
      ((validate_content_length content platform content_type).2.toList) = true ∧
    (platform ∉ valid_platforms → get_platform_limits platform = general_limits) ∧
    get_platform_limits ("Instagram") = [("caption", 2200), ("bio", 150), ("hashtags", 30)] ∧
    get_platform_limits ("Twitter/X") = [("post", 280), ("bio", 160), ("hashtags", 2)] ∧
    get_platform_limits ("LinkedIn") = [("post", 3000), ("headline", 220), ("hashtags", 5)] ∧
    get_platform_limits ("Facebook") = [("post", 63206), ("bio", 101), ("hashtags", 30)] ∧
    get_platform_limits ("TikTok") = [("caption", 2200), ("bio", 80), ("hashtags", 5)] ∧
    get_platform_limits ("YouTube") = [("description", 5000), ("title", 100), ("hashtags", 15)] ∧
    get_platform_limits ("General") = general_limits ∧
    (validate_content_length (String.mk (List.replicate 300 'a')) ("Twitter/X")
      ("post")).1 = false ∧
    containsSub (("300/280").toList)
      ((validate_content_length (String.mk (List.replicate 300 'a')) ("Twitter/X")
        ("post")).2.toList) = true := by
  have hslash : ("/").toList = ['/'] := rfl
  refine ⟨?_, ?_, ?_, by decide, by decide, by decide, by decide, by decide,
    by decide, by decide, by decide, by decide⟩
  · by_cases hlt :
        ((List.lookup content_type (get_platform_limits platform)).getD 2000) <
          content.length
    · simp only [validate_content_length]
      rw [if_pos hlt]
      exact (decide_eq_false (by omega)).symm
    · simp only [validate_content_length]
      rw [if_neg hlt]
      exact (decide_eq_true (by omega)).symm
  · by_cases hlt :
        ((List.lookup content_type (get_platform_limits platform)).getD 2000) <
          content.length
    · simp only [validate_content_length]
      rw [if_pos hlt]
      refine containsSub_middle _
        (("Content exceeds ").toList ++ platform.toList ++ (" ").toList ++
          content_type.toList ++ (" limit of ").toList ++
          decRepr ((List.lookup content_type (get_platform_limits platform)).getD 2000) ++
          (" characters (").toList)
        ((")").toList) _ ?_
      simp [hslash, List.append_assoc]
    · simp only [validate_content_length]
      rw [if_neg hlt]
      refine containsSub_middle _ (("Content length OK (").toList)
        ((" characters)").toList) _ ?_
      simp [hslash, List.append_assoc]
  · intro hp
    simp only [valid_platforms, List.mem_cons, List.not_mem_nil, or_false,
      not_or] at hp
    obtain ⟨n1, n2, n3, n4, n5, n6, n7⟩ := hp
    simp [get_platform_limits, platform_limit_table, List.lookup,
      beq_eq_false_iff_ne.mpr n1, beq_eq_false_iff_ne.mpr n2,
      beq_eq_false_iff_ne.mpr n3, beq_eq_false_iff_ne.mpr n4,
      beq_eq_false_iff_ne.mpr n5, beq_eq_false_iff_ne.mpr n6,
      beq_eq_false_iff_ne.mpr n7]

/-- C5 witness: an unknown platform falls back to the General limits, and the
300-character Twitter/X post fails validation. -/
theorem c5_wit :
    get_platform_limits ("MySpace") = general_limits ∧
    (validate_content_length (String.mk (List.replicate 300 'a')) ("Twitter/X")
      ("post")).1 = false :=
  ⟨(c5_content_length ("x") ("MySpace") ("post")).2.2.1 (by decide),
   (c5_content_length (String.mk (List.replicate 300 'a')) ("Twitter/X")
     ("post")).2.2.2.2.2.2.2.2.2.2.1⟩

/-! Claim C6: clean_text. -/

theorem clean_strip_fix (m : List Char) :
    pyStrip (collapseRuns pyIsSpace ' ' (pyStrip m)) =
      collapseRuns pyIsSpace ' ' (pyStrip m) := by
  cases h : pyStrip m with
  | nil => rfl
  | cons a as =>
    have ha : pyIsSpace a = false := pyStrip_head m a (by rw [h]; rfl)
    obtain ⟨d, hd⟩ : ∃ d, (a :: as).getLast? = some d := by
      cases hgl : (a :: as).getLast? with
      | none => simp at hgl
      | some d => exact ⟨d, rfl⟩
    have hdn : pyIsSpace d = false := pyStrip_getLast m d (by rw [h]; exact hd)
    apply pyStrip_eq_self
    · intro c hc
      rw [collapseRuns, show crGo pyIsSpace ' ' false (a :: as) =
          a :: crGo pyIsSpace ' ' false as by simp [crGo, ha]] at hc
      simp only [List.head?_cons, Option.some.injEq] at hc
      subst hc
      exact ha
    · intro c hc
      rw [collapseRuns, crGo_getLast pyIsSpace ' ' (a :: as) false d hd hdn] at hc
      simp only [Option.some.injEq] at hc
      subst hc
      exact hdn

/-- C6 (amended): `clean_text` is not idempotent, but applying it twice
reaches a fixed point: for every string,
`clean_text (clean_text (clean_text s)) = clean_text (clean_text s)`. -/
theorem c6_clean_text_stable (s : String) :
    clean_text (clean_text (clean_text s)) = clean_text (clean_text s) := by
  have hceq : ∀ t : String, clean_text t =
      String.mk ((collapseRuns pyIsSpace ' ' (pyStrip t.toList)).filter allowedChar) := by
    intro t
    by_cases ht : t = ""
    · rw [ht]; rfl
    · simp [clean_text, ht]
  have hF3 : ∀ l : List Char,
      (collapseRuns pyIsSpace ' ' (pyStrip
        ((collapseRuns pyIsSpace ' ' (pyStrip
          ((collapseRuns pyIsSpace ' ' (pyStrip l)).filter allowedChar))).filter
            allowedChar))).filter allowedChar =
      (collapseRuns pyIsSpace ' ' (pyStrip
        ((collapseRuns pyIsSpace ' ' (pyStrip l)).filter allowedChar))).filter
          allowedChar := by
    intro l
    set t := (collapseRuns pyIsSpace ' ' (pyStrip l)).filter allowedChar with hT
    have htAll : ∀ a ∈ t, allowedChar a = true := by
      intro a ha
      rw [hT] at ha
      exact (List.mem_filter.mp ha).2
    have huAll : ∀ a ∈ collapseRuns pyIsSpace ' ' (pyStrip t), allowedChar a = true := by
      intro a ha
      rcases crGo_mem pyIsSpace ' ' (pyStrip t) false a ha with h | h
      · exact htAll a (pyStrip_mem t a h)
      · rw [h]; decide
    have hFt : (collapseRuns pyIsSpace ' ' (pyStrip t)).filter allowedChar =
        collapseRuns pyIsSpace ' ' (pyStrip t) :=
      List.filter_eq_self.mpr huAll
    rw [hFt, clean_strip_fix t,
      show collapseRuns pyIsSpace ' ' (collapseRuns pyIsSpace ' ' (pyStrip t)) =
        collapseRuns pyIsSpace ' ' (pyStrip t) from
          crGo_idem pyIsSpace ' ' (by decide) (pyStrip t) false]
    exact hFt
  simp only [hceq, toList_mk]
  exact congrArg String.mk (hF3 s.toList)

/-- C6 counterexample: `clean_text` is not idempotent — deleting the
disallowed caret between two spaces leaves a double space that only a second
pass collapses. -/
theorem c6_cex :
    clean_text ("a ^ b") = "a  b" ∧
    clean_text (clean_text ("a ^ b")) = "a b" ∧
    clean_text (clean_text ("a ^ b")) ≠ clean_text ("a ^ b") := by
  exact ⟨by decide, by decide, by decide⟩

/-! Claims C7 and C10: hashtag extraction. -/

theorem dedupAux_mem (l : List (List Char)) :
    ∀ (seen : List (List Char)) (x : List Char), x ∈ dedupAux seen l → x ∈ l := by
  induction l with
  | nil =>
    intro seen x h
    simp [dedupAux] at h
  | cons y ys ih =>
    intro seen x h
    by_cases hy : y ∈ seen
    · rw [show dedupAux seen (y :: ys) = dedupAux seen ys by simp [dedupAux, hy]] at h
      exact List.mem_cons_of_mem y (ih seen x h)
    · rw [show dedupAux seen (y :: ys) = y :: dedupAux (y :: seen) ys by
        simp [dedupAux, hy]] at h
      rcases List.mem_cons.mp h with h | h
      · exact h ▸ List.mem_cons_self y ys
      · exact List.mem_cons_of_mem y (ih (y :: seen) x h)

theorem dedupAux_not_seen (l : List (List Char)) :
    ∀ (seen : List (List Char)) (x : List Char), x ∈ dedupAux seen l → x ∉ seen := by
  induction l with
  | nil =>
    intro seen x h
    simp [dedupAux] at h
  | cons y ys ih =>
    intro seen x h
    by_cases hy : y ∈ seen
    · rw [show dedupAux seen (y :: ys) = dedupAux seen ys by simp [dedupAux, hy]] at h
      exact ih seen x h
    · rw [show dedupAux seen (y :: ys) = y :: dedupAux (y :: seen) ys by
        simp [dedupAux, hy]] at h
      rcases List.mem_cons.mp h with h | h
      · exact h ▸ hy
      · intro hxs
        exact (ih (y :: seen) x h) (List.mem_cons_of_mem y hxs)

theorem dedupAux_nodup (l : List (List Char)) :
    ∀ seen : List (List Char), (dedupAux seen l).Nodup := by
  induction l with
  | nil => intro seen; simp [dedupAux]
  | cons y ys ih =>
    intro seen
    by_cases hy : y ∈ seen
    · rw [show dedupAux seen (y :: ys) = dedupAux seen ys by simp [dedupAux, hy]]
      exact ih seen
    · rw [show dedupAux seen (y :: ys) = y :: dedupAux (y :: seen) ys by
        simp [dedupAux, hy]]
      refine List.nodup_cons.mpr ⟨?_, ih (y :: seen)⟩
      intro hmem
      exact (dedupAux_not_seen ys (y :: seen) y hmem) (List.mem_cons_self y seen)

theorem dedupFirst_mem (l : List (List Char)) (x : List Char)
    (h : x ∈ dedupFirst l) : x ∈ l := dedupAux_mem l [] x h

theorem dedupFirst_nodup (l : List (List Char)) : (dedupFirst l).Nodup :=
  dedupAux_nodup l []

/-- C7: on the input with the three candidate tags, `format_hashtags` returns
exactly the collection of `#Go` and `#ab` up to order, drops `#1` (whose
cleaned tag has length 1), and contains no duplicates. -/
theorem c7_format_hashtags :
    List.Perm (format_hashtags ("check #Go! and #1 and #ab")) ["#Go", "#ab"] ∧
    ("#1" : String) ∉ format_hashtags ("check #Go! and #1 and #ab") ∧
    (format_hashtags ("check #Go! and #1 and #ab")).Nodup := by
  refine ⟨?_, by decide, by decide⟩
  rw [show format_hashtags ("check #Go! and #1 and #ab") = ["#Go", "#ab"] by decide]

/-- C10: every element returned by `format_hashtags` consists of `#` followed
by at least two characters, each an ASCII letter, digit or underscore
(non-ASCII word characters matched inside a hashtag are removed from the tag,
as the accented concrete input shows), and the returned list has no
duplicates. -/
theorem c10_hashtag_shape (s t : String) (ht : t ∈ format_hashtags s) :
    t.toList.head? = some '#' ∧
    3 ≤ t.toList.length ∧
    t.toList.tail.all asciiWordChar = true ∧
    (format_hashtags s).Nodup ∧
    format_hashtags ("go #aéb") = ["#ab"] := by
  have hinj : Function.Injective String.mk := fun a b h => by injection h
  by_cases hs : s = ""
  · rw [show format_hashtags s = [] by simp [format_hashtags, hs]] at ht
    exact absurd ht (List.not_mem_nil t)
  · have hfh : format_hashtags s = (dedupFirst ((findTags s.toList).filterMap
        (fun tag =>
          let ct := (tag.filter (fun c => c != '#')).filter asciiWordChar
          if ct ≠ [] ∧ 1 < ct.length then some ('#' :: ct) else none))).map
          String.mk := by
      simp [format_hashtags, hs]
    have hnodup : (format_hashtags s).Nodup := by
      rw [hfh]
      exact (dedupFirst_nodup _).map hinj
    rw [hfh] at ht
    obtain ⟨x, hx, hxt⟩ := List.mem_map.mp ht
    have hxf := dedupFirst_mem _ x hx
    obtain ⟨tag, htag, hf⟩ := List.mem_filterMap.mp hxf
    simp only at hf
    by_cases hcond : (tag.filter (fun c => c != '#')).filter asciiWordChar ≠ [] ∧
        1 < ((tag.filter (fun c => c != '#')).filter asciiWordChar).length
    · rw [if_pos hcond] at hf
      have hx2 : '#' :: (tag.filter (fun c => c != '#')).filter asciiWordChar = x := by
        simpa using hf
      rw [← hxt, ← hx2, toList_mk]
      refine ⟨rfl, ?_, ?_, hnodup, by decide⟩
      · simp only [List.length_cons]
        omega
      · simp only [List.tail_cons]
        exact List.all_eq_true.mpr (fun a ha => (List.mem_filter.mp ha).2)
    · rw [if_neg hcond] at hf
      exact absurd hf (by simp)

/-- C10 witness: the shape facts at the accented concrete input. -/
theorem c10_wit :
    ("#ab" : String).toList.head? = some '#' ∧
    3 ≤ ("#ab" : String).toList.length ∧
    ("#ab" : String).toList.tail.all asciiWordChar = true ∧
    (format_hashtags ("go #aéb")).Nodup ∧
    format_hashtags ("go #aéb") = ["#ab"] :=
  c10_hashtag_shape ("go #aéb") ("#ab") (by decide)

/-! Claim C8: download filenames. -/

theorem decDigit_isDigit (n : Nat) : (decDigit n).isDigit = true := by
  unfold decDigit
  split_ifs <;> decide

theorem decReprAux_fuel (f1 : Nat) : ∀ (f2 n : Nat), n < f1 → n < f2 →
    decReprAux f1 n = decReprAux f2 n := by
  induction f1 with
  | zero =>
    intro f2 n h1 h2
    omega
  | succ f ih =>
    intro f2 n h1 h2
    cases f2 with
    | zero => omega
    | succ g =>
      by_cases hn : n < 10
      · simp [decReprAux, hn]
      · have h10 : 10 ≤ n := by omega
        have hd : n / 10 < n := Nat.div_lt_self (by omega) (by omega)
        rw [show decReprAux (f + 1) n = decReprAux f (n / 10) ++ [decDigit (n % 10)] by
            simp [decReprAux, hn],
          show decReprAux (g + 1) n = decReprAux g (n / 10) ++ [decDigit (n % 10)] by
            simp [decReprAux, hn],
          ih g (n / 10) (by omega) (by omega)]

theorem decRepr_unfold (n : Nat) :
    decRepr n = if n < 10 then [decDigit n]
      else decRepr (n / 10) ++ [decDigit (n % 10)] := by
  by_cases hn : n < 10
  · simp [decRepr, decReprAux, hn]
  · have hd : n / 10 < n := Nat.div_lt_self (by omega) (by omega)
    rw [if_neg hn, decRepr, decRepr,
      show decReprAux (n + 1) n = decReprAux n (n / 10) ++ [decDigit (n % 10)] by
        simp [decReprAux, hn],
      decReprAux_fuel n (n / 10 + 1) (n / 10) hd (by omega)]

theorem decRepr_digits (n : Nat) : ∀ c ∈ decRepr n, c.isDigit = true := by
  induction n using Nat.strong_induction_on with
  | _ n ih =>
    intro c hc
    rw [decRepr_unfold n] at hc
    by_cases hn : n < 10
    · rw [if_pos hn] at hc
      simp only [List.mem_singleton] at hc
      subst hc
      exact decDigit_isDigit n
    · rw [if_neg hn] at hc
      rcases List.mem_append.mp hc with hc | hc
      · exact ih (n / 10) (Nat.div_lt_self (by omega) (by omega)) c hc
      · simp only [List.mem_singleton] at hc
        subst hc
        exact decDigit_isDigit (n % 10)

theorem decRepr_length_le (k : Nat) : ∀ n, n < 10 ^ (k + 1) →
    (decRepr n).length ≤ k + 1 := by
  induction k with
  | zero =>
    intro n h
    have hn : n < 10 := by omega
    rw [decRepr_unfold n, if_pos hn]
    rfl
  | succ k ih =>
    intro n h
    rw [decRepr_unfold n]
    by_cases hn : n < 10
    · rw [if_pos hn]
      simp
    · rw [if_neg hn]
      have hdiv : n / 10 < 10 ^ (k + 1) := by
        rw [Nat.div_lt_iff_lt_mul (by omega)]
        calc n < 10 ^ (k + 1 + 1) := h
          _ = 10 ^ (k + 1) * 10 := by ring
      have := ih (n / 10) hdiv
      simp only [List.length_append, List.length_singleton]
      omega

theorem padZ_length (w n : Nat) (h : (decRepr n).length ≤ w) :
    (padZ w n).length = w := by
  simp only [padZ, List.length_append, List.length_replicate]
  omega

theorem padZ_digits (w n : Nat) : ∀ c ∈ padZ w n, c.isDigit = true := by
  intro c hc
  rcases List.mem_append.mp hc with hc | hc
  · rw [List.eq_of_mem_replicate hc]
    decide
  · exact decRepr_digits n c hc

theorem toLower_ne_slash (c : Char) (h : c ≠ '/') : Char.toLower c ≠ '/' := by
  simp only [Char.toLower]
  split_ifs with hc
  · intro he
    have hb : ∀ m : Nat, m < 123 → 97 ≤ m → Char.ofNat m ≠ '/' := by decide
    exact hb (c.toNat + 32) (by omega) (by omega) he
  · exact h

/-- C8 (amended): for every topic, platform and `/`-free fileType,
`create_download_filename` returns
`social_media_{slug}_{platform}_{timestamp}.{fileType}` where the slug (the
topic stripped of non-word/non-space/non-hyphen characters, trimmed, with
whitespace/hyphen runs collapsed to single hyphens) has at most 30
characters, the platform part is the platform with `/` replaced by `_` and
lower-cased, the timestamp has the 15-character `YYYYMMDD_HHMMSS` shape
(8 digits, underscore, 6 digits), and the whole filename contains no `/`;
the fileType extension is appended unsanitized. -/
theorem c8_download_filename (topic platform file_type : String) (now : PyDateTime)
    (hy1 : 1000 ≤ now.year) (hy2 : now.year ≤ 9999) (hmo : now.month ≤ 99)
    (hda : now.day ≤ 99) (hho : now.hour ≤ 99) (hmi : now.minute ≤ 99)
    (hse : now.second ≤ 99) (hft : '/' ∉ file_type.toList) :
    (create_download_filename topic platform file_type now).toList =
      ("social_media_").toList ++ safe_topic_slug topic ++
      '_' :: safe_platform_name platform ++ '_' :: timestamp_chars now ++
      '.' :: file_type.toList ∧
    (safe_topic_slug topic).length ≤ 30 ∧
    (timestamp_chars now).length = 15 ∧
    ((timestamp_chars now).take 8).all Char.isDigit = true ∧
    ((timestamp_chars now).drop 8).head? = some '_' ∧
    ((timestamp_chars now).drop 9).all Char.isDigit = true ∧
    '/' ∉ (create_download_filename topic platform file_type now).toList := by
  have l4 : (padZ 4 now.year).length = 4 :=
    padZ_length 4 now.year (decRepr_length_le 3 now.year (by norm_num; omega))
  have l2m : (padZ 2 now.month).length = 2 :=
    padZ_length 2 now.month (decRepr_length_le 1 now.month (by norm_num; omega))
  have l2d : (padZ 2 now.day).length = 2 :=
    padZ_length 2 now.day (decRepr_length_le 1 now.day (by norm_num; omega))
  have l2h : (padZ 2 now.hour).length = 2 :=
    padZ_length 2 now.hour (decRepr_length_le 1 now.hour (by norm_num; omega))
  have l2i : (padZ 2 now.minute).length = 2 :=
    padZ_length 2 now.minute (decRepr_length_le 1 now.minute (by norm_num; omega))
  have l2s : (padZ 2 now.second).length = 2 :=
    padZ_length 2 now.second (decRepr_length_le 1 now.second (by norm_num; omega))
  have hT : timestamp_chars now =
      (padZ 4 now.year ++ padZ 2 now.month ++ padZ 2 now.day) ++
      '_' :: (padZ 2 now.hour ++ padZ 2 now.minute ++ padZ 2 now.second) := by
    simp [timestamp_chars, List.append_assoc]
  have h8 : (padZ 4 now.year ++ padZ 2 now.month ++ padZ 2 now.day).length = 8 := by
    simp [l4, l2m, l2d]
  have hslug : ∀ c ∈ safe_topic_slug topic, c ≠ '/' := by
    intro c hc
    rw [safe_topic_slug] at hc
    have hc2 := List.mem_of_mem_take hc
    rcases crGo_mem _ '-' _ false c hc2 with h | h
    · have h3 := pyStrip_mem _ c h
      have h4 := (List.mem_filter.mp h3).2
      intro he
      subst he
      simp [keepTopicChar, pyWordChar, pyIsSpace] at h4
    · rw [h]
      decide
  have hplat : ∀ c ∈ safe_platform_name platform, c ≠ '/' := by
    intro c hc
    rw [safe_platform_name] at hc
    obtain ⟨c1, hc1, hc1e⟩ := List.mem_map.mp hc
    obtain ⟨c0, hc0, hc0e⟩ := List.mem_map.mp hc1
    rw [← hc1e]
    apply toLower_ne_slash
    rw [← hc0e]
    by_cases h0 : c0 = '/' <;> simp [h0]
  have htime : ∀ c ∈ timestamp_chars now, c ≠ '/' := by
    intro c hc
    rw [hT] at hc
    rcases List.mem_append.mp hc with hc | hc
    · rcases List.mem_append.mp hc with hc | hc
      · rcases List.mem_append.mp hc with hc | hc
        · intro he; subst he
          have := padZ_digits 4 now.year '/' hc
          simp at this
        · intro he; subst he
          have := padZ_digits 2 now.month '/' hc
          simp at this
      · intro he; subst he
        have := padZ_digits 2 now.day '/' hc
        simp at this
    · rcases List.mem_cons.mp hc with hc | hc
      · rw [hc]; decide
      · rcases List.mem_append.mp hc with hc | hc
        · rcases List.mem_append.mp hc with hc | hc
          · intro he; subst he
            have := padZ_digits 2 now.hour '/' hc
            simp at this
          · intro he; subst he
            have := padZ_digits 2 now.minute '/' hc
            simp at this
        · intro he; subst he
          have := padZ_digits 2 now.second '/' hc
          simp at this
  refine ⟨rfl, ?_, ?_, ?_, ?_, ?_, ?_⟩
  · rw [safe_topic_slug]
    exact List.length_take_le 30 _
  · rw [hT]
    simp only [List.length_append, List.length_cons, h8]
    simp [l2h, l2i, l2s]
  · rw [hT, List.take_left' h8]
    refine List.all_eq_true.mpr (fun c hc => ?_)
    rcases List.mem_append.mp hc with hc | hc
    · rcases List.mem_append.mp hc with hc | hc
      · exact padZ_digits 4 now.year c hc
      · exact padZ_digits 2 now.month c hc
    · exact padZ_digits 2 now.day c hc
  · rw [hT, List.drop_left' h8]
    rfl
  · have hdrop9 : (timestamp_chars now).drop 9 =
        padZ 2 now.hour ++ padZ 2 now.minute ++ padZ 2 now.second := by
      rw [hT, show (padZ 4 now.year ++ padZ 2 now.month ++ padZ 2 now.day) ++
          '_' :: (padZ 2 now.hour ++ padZ 2 now.minute ++ padZ 2 now.second) =
          (padZ 4 now.year ++ padZ 2 now.month ++ padZ 2 now.day ++ ['_']) ++
          (padZ 2 now.hour ++ padZ 2 now.minute ++ padZ 2 now.second) by simp]
      exact List.drop_left' (by simp [l4, l2m, l2d])
    rw [hdrop9]
    refine List.all_eq_true.mpr (fun c hc2 => ?_)
    rcases List.mem_append.mp hc2 with hc3 | hc3
    · rcases List.mem_append.mp hc3 with hc4 | hc4
      · exact padZ_digits 2 now.hour c hc4
      · exact padZ_digits 2 now.minute c hc4
    · exact padZ_digits 2 now.second c hc3
  · rw [create_download_filename, toList_mk]
    intro hmem
    rcases List.mem_append.mp hmem with h | h
    · rcases List.mem_append.mp h with h | h
      · rcases List.mem_append.mp h with h | h
        · rcases List.mem_append.mp h with h | h
          · exact absurd h (by decide)
          · exact hslug '/' h rfl
        · rcases List.mem_cons.mp h with h | h
          · exact absurd h (by decide)
          · exact hplat '/' h rfl
      · rcases List.mem_cons.mp h with h | h
        · exact absurd h (by decide)
        · exact htime '/' h rfl
    · rcases List.mem_cons.mp h with h | h
      · exact absurd h (by decide)
      · exact hft h

/-- C8 counterexample: a fileType containing a slash puts a slash into the
returned filename, so the no-slash guarantee does not hold for every
fileType. -/
theorem c8_cex :
    '/' ∈ (create_download_filename ("Topic") ("Instagram") ("j/son")
      ⟨2026, 1, 2, 3, 4, 5⟩).toList := by
  decide

/-- C8 witness: the amended filename facts at a concrete topic, platform,
extension and time. -/
theorem c8_wit :
    (safe_topic_slug ("Hello, World! ok")).length ≤ 30 ∧
    (timestamp_chars ⟨2026, 10, 12, 3, 4, 5⟩).length = 15 ∧
    '/' ∉ (create_download_filename ("Hello, World! ok") ("Twitter/X") ("json")
      ⟨2026, 10, 12, 3, 4, 5⟩).toList := by
  have h := c8_download_filename ("Hello, World! ok") ("Twitter/X") ("json")
    ⟨2026, 10, 12, 3, 4, 5⟩ (by decide) (by decide) (by decide) (by decide)
    (by decide) (by decide) (by decide) (by decide)
  exact ⟨h.2.1, h.2.2.1, h.2.2.2.2.2.2⟩
